import Mathlib

/-!
Shallow embedding of `src/model.cc` (fastText's `Model` class): Huffman tree
construction, negative-sampling table, training update, loss accounting and
prediction, together with theorems checking the specification's claims.
-/

namespace FastText

/-- Loss selection (`loss_name` from the configuration bundle). -/
inductive lossName where
  | ns
  | hs
  | softmax
deriving DecidableEq, Repr

/-- Model selection (`model_name`): embedding training (`cbow`/`sg`) or supervised. -/
inductive modelName where
  | cbow
  | sg
  | sup
deriving DecidableEq, Repr

/-- The slice of `Args` that `model.cc` reads. -/
structure Args where
  dim : ℕ
  loss : lossName
  neg : ℕ
  model : modelName

/-- One node of the Huffman tree (`Node` in `model.h`, as used by `Model::buildTree`). -/
structure HuffNode where
  parent : Int
  left : Int
  right : Int
  count : Int
  binary : Bool
deriving DecidableEq, Repr

/-- Initial tree of `Model::buildTree`: every node gets the `1e15` sentinel count and
no parent/children; then leaves `0..osz_-1` get `counts[i]`.  (The two init loops of
lines 362-371 fused into one function: index below `osz` reads `counts`.) -/
def treeInit (osz : ℕ) (counts : List Int) (i : ℕ) : HuffNode :=
  if i < osz then
    { parent := -1, left := -1, right := -1, count := counts.getD i 0, binary := false }
  else
    { parent := -1, left := -1, right := -1, count := 10 ^ 15, binary := false }

/-- Pointwise update of the functional tree array. -/
def setNode (tree : ℕ → HuffNode) (i : ℕ) (f : HuffNode → HuffNode) : ℕ → HuffNode :=
  fun j => if j = i then f (tree j) else tree j

/-- One iteration of the inner `j < 2` loop of `buildTree` (lines 376-382): pick the
next-smallest of the leaf cursor and the internal-node cursor.  Returns the picked
index and the advanced cursors. -/
def pickMin (tree : ℕ → HuffNode) (leaf : Int) (node : ℕ) : ℕ × Int × ℕ :=
  if 0 ≤ leaf ∧ (tree leaf.toNat).count < (tree node).count then
    (leaf.toNat, leaf - 1, node)
  else
    (node, leaf, node + 1)

/-- Body of the main loop of `buildTree` (lines 374-389) for internal node `i`. -/
def buildStep (st : (ℕ → HuffNode) × Int × ℕ) (i : ℕ) : (ℕ → HuffNode) × Int × ℕ :=
  let tree := st.1
  let p0 := pickMin tree st.2.1 st.2.2
  let m0 := p0.1
  let p1 := pickMin tree p0.2.1 p0.2.2
  let m1 := p1.1
  let tree1 := setNode tree i fun n =>
    { n with left := (m0 : Int), right := (m1 : Int),
             count := (tree m0).count + (tree m1).count }
  let tree2 := setNode tree1 m0 fun n => { n with parent := (i : Int) }
  let tree3 := setNode tree2 m1 fun n => { n with parent := (i : Int), binary := true }
  (tree3, p1.2.1, p1.2.2)

/-- `Model::buildTree` (lines 360-389): two-pointer Huffman construction over
`2*osz-1` nodes; internal nodes `osz..2*osz-2` are built in index order. -/
def buildTreeFn (osz : ℕ) (counts : List Int) : ℕ → HuffNode :=
  ((List.range' osz (osz - 1)).foldl buildStep
    (treeInit osz counts, (osz : Int) - 1, (osz : ℕ))).1

/-- Parent walk of `buildTree`'s path/code extraction (lines 390-401): from node `j`
follow `parent` links to the root, recording `parent - osz` and the child's `binary`
flag.  `fuel` bounds the walk (the built tree has height `< 2*osz`). -/
def pathWalk (tree : ℕ → HuffNode) (osz : ℕ) : ℕ → ℕ → List Int × List Bool
  | 0, _ => ([], [])
  | fuel + 1, j =>
    if (tree j).parent = -1 then ([], [])
    else
      let p := (tree j).parent.toNat
      let rest := pathWalk tree osz fuel p
      (((p : Int) - (osz : Int)) :: rest.1, (tree j).binary :: rest.2)

/-- The per-leaf root paths (`paths` member after `buildTree`). -/
def buildPaths (osz : ℕ) (tree : ℕ → HuffNode) : List (List Int) :=
  (List.range osz).map fun i => (pathWalk tree osz (2 * osz) i).1

/-- The per-leaf binary codes (`codes` member after `buildTree`). -/
def buildCodes (osz : ℕ) (tree : ℕ → HuffNode) : List (List Bool) :=
  (List.range osz).map fun i => (pathWalk tree osz (2 * osz) i).2

/-- Number of iterations of the C loop `for (size_t j = 0; j < x; j++)` whose bound
`x` is a real number: the set of naturals `j` with `(j : ℝ) < x` has exactly
`⌈x⌉₊` elements (see `loopCount_spec` below). -/
noncomputable def loopCount (x : ℝ) : ℕ := ⌈x⌉₊

/-- `Model::initTableNegatives` (lines 333-343) before the shuffle: class `i`
contributes one entry per loop iteration of `for (j = 0; j < c * T / z; j++)`,
where `c = pow(counts[i], 0.5)` and `z = Σ pow(counts[j], 0.5)`.  The table size
`NEGATIVE_TABLE_SIZE` is declared in `model.h` (not under `src/`), so it is kept
as the parameter `T`. -/
noncomputable def negTablePre (counts : List Int) (T : ℕ) : List ℕ :=
  let z : ℝ := (counts.map fun c => Real.sqrt ((c : Int) : ℝ)).sum
  (List.range counts.length).flatMap fun i =>
    List.replicate (loopCount (Real.sqrt (((counts.getD i 0 : Int)) : ℝ) * (T : ℝ) / z)) i

/-- Modelled from the spec: `std::shuffle(negatives_.begin(), negatives_.end(), rng)`
uses the mersenne-twister engine declared in `model.h`, which is not under `src/`.
The spec only fixes that the shuffle is "seeded, deterministic given the seed" and a
permutation; no claim depends on which permutation, so it is modelled as the
identity permutation (a deterministic function of the seed and the list). -/
def shuffleSeeded (seed : ℕ) (l : List ℕ) : List ℕ := l

/-- `Model::initTableNegatives` including the final shuffle. -/
noncomputable def initTableNegatives (seed : ℕ) (counts : List Int) (T : ℕ) : List ℕ :=
  shuffleSeeded seed (negTablePre counts T)

/-- The `do { ... } while (target == negative)` loop of `Model::getNegative`
(lines 347-354), with explicit fuel: `none` models nontermination (every scanned
entry equals `target`). -/
def getNegativeAux (tbl : List ℕ) (target : ℕ) : ℕ → ℕ → Option (ℕ × ℕ)
  | 0, _ => none
  | fuel + 1, pos =>
    let negative := tbl.getD pos 0
    let pos1 := (pos + 1) % tbl.length
    if target = negative then getNegativeAux tbl target fuel pos1
    else some (negative, pos1)

/-- `Model::getNegative`: read entries at the rotating cursor until one differs from
`target`; returns the sample and the advanced cursor.  A full cyclic scan of the
table (length-many reads) decides the loop, hence the fuel `tbl.length`. -/
def getNegative (tbl : List ℕ) (pos : ℕ) (target : ℕ) : Option (ℕ × ℕ) :=
  getNegativeAux tbl target tbl.length pos

/-- Real-to-int64 conversion `int64_t(x)`: truncation toward zero. -/
noncomputable def truncZ (x : ℝ) : Int :=
  if x < 0 then -⌊-x⌋ else ⌊x⌋

/-- Entry `i` of the precomputed sigmoid table (`Model::initSigmoid`, lines 412-417):
`σ(i·2·8/512 − 8)`. -/
noncomputable def t_sigmoidVal (i : Int) : ℝ :=
  1 / (1 + Real.exp (-(((i : ℝ) * 2 * 8) / 512 - 8)))

/-- `Model::sigmoid` (lines 438-447): clamp outside `[-8, 8]`, else table lookup at
`int64_t((x+8)·512/8/2)`. -/
noncomputable def sigmoidT (x : ℝ) : ℝ :=
  if x < -8 then 0
  else if x > 8 then 1
  else t_sigmoidVal (truncZ ((x + 8) * 512 / 8 / 2))

/-- Entry `i` of the precomputed log table (`Model::initLog`, lines 419-424):
`ln((i + 1e-5)/512)`. -/
noncomputable def t_logVal (i : Int) : ℝ :=
  Real.log (((i : ℝ) + 1e-5) / 512)

/-- `Model::log` (lines 426-432): `0` for `x > 1`, else table lookup at
`int64_t(x·512)`. -/
noncomputable def logT (x : ℝ) : ℝ :=
  if x > 1 then 0 else t_logVal (truncZ (x * 512))

/-- `Model::std_log` (lines 434-436): `ln(x + 1e-5)`, computed directly. -/
noncomputable def std_logT (x : ℝ) : ℝ :=
  Real.log (x + 1e-5)

/-- The mutable state of a `Model` instance.  Matrices are functions from row and
column index; vectors from index.  The quantized matrices `qwi_`/`qwo_` are never
installed in any modelled scenario (`quant_` stays `false`, as set by the
constructor), so the `quant_` branches reduce to the non-quantized reads. -/
structure ModelState where
  wi_ : ℕ → ℕ → ℝ
  wo_ : ℕ → ℕ → ℝ
  hidden_ : ℕ → ℝ
  output_ : ℕ → ℝ
  grad_ : ℕ → ℝ
  negatives_ : List ℕ
  negpos : ℕ
  loss_ : ℝ
  nexamples_ : ℕ
  tree : ℕ → HuffNode
  paths : List (List Int)
  codes : List (List Bool)
  args_ : Args
  osz_ : ℕ
  hsz_ : ℕ
  rng : ℕ
  quant_ : Bool

/-- `Model::Model` (lines 23-51): scratch vectors zeroed, `osz_ = wo->size(0)`
(passed here as `oszWo` since matrices are functions), `hsz_ = args->dim`,
`negpos = 0`, `loss_ = 0.0`, `nexamples_ = 1`, `quant_ = false`; the tree and the
path/code/negative tables start empty. -/
def mkModel (wi wo : ℕ → ℕ → ℝ) (oszWo : ℕ) (args : Args) (seed : ℕ) : ModelState where
  wi_ := wi
  wo_ := wo
  hidden_ := fun _ => 0
  output_ := fun _ => 0
  grad_ := fun _ => 0
  negatives_ := []
  negpos := 0
  loss_ := 0
  nexamples_ := 1
  tree := fun _ => { parent := -1, left := -1, right := -1, count := 10 ^ 15, binary := false }
  paths := []
  codes := []
  args_ := args
  osz_ := oszWo
  hsz_ := args.dim
  rng := seed
  quant_ := false

/-- `Matrix::dotRow(vec, i)` over `d` columns: `Σ_{j<d} m[i][j]·vec[j]`. -/
noncomputable def dotRow (m : ℕ → ℕ → ℝ) (v : ℕ → ℝ) (r : ℕ) (d : ℕ) : ℝ :=
  ((List.range d).map fun j => m r j * v j).sum

/-- The denominator of `computeHidden`'s final scaling `hidden.mul(1.0 / input.size())`. -/
def hiddenDenom (input : List ℕ) : ℝ :=
  (input.length : ℝ)

/-- `Model::computeHidden` (lines 198-212): zero the vector, add each input token's
embedding row, multiply by `1.0 / input.size()`. -/
noncomputable def computeHidden (wi : ℕ → ℕ → ℝ) (input : List ℕ) : ℕ → ℝ :=
  fun j => (input.foldl (fun acc i => acc + wi i j) 0) * (1 / hiddenDenom input)

/-- `Model::binaryLogistic` (lines 64-77): score by table sigmoid of
`wo_->dotRow(hidden_, target)`; `alpha = lr·(label − score)`;
`grad_ += alpha·wo_[target]`; `wo_[target] += alpha·hidden_`; returns the
table-log loss for the label. -/
noncomputable def binaryLogistic (s : ModelState) (target : ℕ) (label : Bool) (lr : ℝ) :
    ModelState × ℝ :=
  let score := sigmoidT (dotRow s.wo_ s.hidden_ target s.hsz_)
  let alpha := lr * ((if label then (1 : ℝ) else 0) - score)
  let grad1 := fun j => s.grad_ j + alpha * s.wo_ target j
  let wo1 := fun r j => if r = target then s.wo_ r j + alpha * s.hidden_ j else s.wo_ r j
  ({ s with grad_ := grad1, wo_ := wo1 },
   if label then -logT score else -logT (1 - score))

/-- Body of the `n <= args_->neg` loop of `Model::negativeSampling` (lines 82-88):
`n = 0` is the positive call, every other `n` draws a sample via `getNegative`
(advancing `negpos`); `none` propagates the divergence of `getNegative` on a
target-saturated table. -/
noncomputable def nsStep (target : ℕ) (lr : ℝ) (acc : Option (ModelState × ℝ)) (n : ℕ) :
    Option (ModelState × ℝ) :=
  match acc with
  | none => none
  | some (st, loss) =>
    if n = 0 then
      let r := binaryLogistic st target true lr
      some (r.1, loss + r.2)
    else
      match getNegative st.negatives_ st.negpos target with
      | none => none
      | some (neg, pos1) =>
        let r := binaryLogistic { st with negpos := pos1 } neg false lr
        some (r.1, loss + r.2)

/-- `Model::negativeSampling` (lines 79-90): zero the gradient, then one positive
`binaryLogistic` call (`n = 0`) and `args.neg` negative calls. -/
noncomputable def negativeSampling (s : ModelState) (target : ℕ) (lr : ℝ) :
    Option (ModelState × ℝ) :=
  (List.range (s.args_.neg + 1)).foldl (nsStep target lr)
    (some ({ s with grad_ := fun _ => 0 }, 0))

/-- Body of the path walk of `Model::hierarchicalSoftmax` (lines 97-99): one
`binaryLogistic` call per node on the path, labelled by the code bit. -/
noncomputable def hsStep (path : List Int) (code : List Bool) (lr : ℝ)
    (acc : ModelState × ℝ) (i : ℕ) : ModelState × ℝ :=
  let r := binaryLogistic acc.1 (path.getD i 0).toNat (code.getD i false) lr
  (r.1, acc.2 + r.2)

/-- `Model::hierarchicalSoftmax` (lines 92-101): zero the gradient, then walk the
precomputed path of `target`. -/
noncomputable def hierarchicalSoftmax (s : ModelState) (target : ℕ) (lr : ℝ) :
    ModelState × ℝ :=
  (List.range (s.paths.getD target []).length).foldl
    (hsStep (s.paths.getD target []) (s.codes.getD target []) lr)
    ({ s with grad_ := fun _ => 0 }, 0)

/-- `Model::computeOutputSoftmax` (lines 172-189): `output = wo·hidden`, subtract the
running max, exponentiate, normalize by the sum. -/
noncomputable def computeOutputSoftmaxV (wo : ℕ → ℕ → ℝ) (hidden : ℕ → ℝ) (osz hsz : ℕ) :
    ℕ → ℝ :=
  let out0 := fun i => dotRow wo hidden i hsz
  let mx := (List.range osz).foldl (fun m i => max (out0 i) m) (out0 0)
  let z := ((List.range osz).map fun i => Real.exp (out0 i - mx)).sum
  fun i => Real.exp (out0 i - mx) / z

/-- Body of the class loop of `Model::softmax` (lines 107-115): per class `i`,
`alpha = lr·([i = target] − output[i])`, accumulate the gradient, update output
row `i`. -/
noncomputable def smStep (target : ℕ) (lr : ℝ) (out : ℕ → ℝ) (st : ModelState) (i : ℕ) :
    ModelState :=
  let alpha := lr * ((if i = target then (1 : ℝ) else 0) - out i)
  let grad1 := fun j => st.grad_ j + alpha * st.wo_ i j
  let wo1 := fun r j => if r = i then st.wo_ r j + alpha * st.hidden_ j else st.wo_ r j
  { st with grad_ := grad1, wo_ := wo1 }

/-- `Model::softmax` (lines 104-117): zero the gradient, compute the softmax
distribution into `output_`, then for every class update gradient and output row;
loss is `-log(output_[target])` through the table log. -/
noncomputable def softmax (s : ModelState) (target : ℕ) (lr : ℝ) : ModelState × ℝ :=
  let out := computeOutputSoftmaxV s.wo_ s.hidden_ s.osz_ s.hsz_
  ((List.range s.osz_).foldl (smStep target lr out)
      { s with grad_ := fun _ => 0, output_ := out },
   -logT (out target))

/-- The strategy dispatch of `Model::update` (lines 131-137): exactly one of the
three losses runs, selected by `args_->loss`. -/
noncomputable def lossBranch (s0 : ModelState) (target : ℕ) (lr : ℝ) :
    Option (ModelState × ℝ) :=
  match s0.args_.loss with
  | .ns => negativeSampling s0 target lr
  | .hs => some (hierarchicalSoftmax s0 target lr)
  | .softmax => some (softmax s0 target lr)

/-- `Model::update` (lines 124-148), returning also the per-example loss the chosen
strategy reported (`none` when the empty-input early return fires, so no loss was
computed).  The outer `none` models nontermination inside negative sampling. -/
noncomputable def updateWithLoss (s : ModelState) (input : List ℕ) (target : ℕ) (lr : ℝ) :
    Option (ModelState × Option ℝ) :=
  if input.length = 0 then some (s, none)
  else
    match lossBranch { s with hidden_ := computeHidden s.wi_ input } target lr with
    | none => none
    | some (s1, l) =>
      let s2 := { s1 with loss_ := s1.loss_ + l, nexamples_ := s1.nexamples_ + 1 }
      let g := if s.args_.model = .sup
               then (fun j => s2.grad_ j * (1 / hiddenDenom input))
               else s2.grad_
      let wi1 := input.foldl
        (fun m t => fun r j => if r = t then m r j + 1 * g j else m r j) s2.wi_
      some ({ s2 with grad_ := g, wi_ := wi1 }, some l)

/-- `Model::update` as a state transformer. -/
noncomputable def update (s : ModelState) (input : List ℕ) (target : ℕ) (lr : ℝ) :
    Option ModelState :=
  (updateWithLoss s input target lr).map Prod.fst

/-- A sequence of `update` calls, recording each computed per-example loss. -/
noncomputable def runTrace (s : ModelState) :
    List (List ℕ × ℕ × ℝ) → Option (ModelState × List ℝ)
  | [] => some (s, [])
  | ex :: rest =>
    match updateWithLoss s ex.1 ex.2.1 ex.2.2 with
    | none => none
    | some (s1, l) =>
      match runTrace s1 rest with
      | none => none
      | some (s2, ls) => some (s2, l.toList ++ ls)

/-- A sequence of `update` calls, keeping only the final state. -/
noncomputable def runUpdates (s : ModelState) (exs : List (List ℕ × ℕ × ℝ)) :
    Option ModelState :=
  (runTrace s exs).map Prod.fst

/-- `Model::getLoss` (lines 404-406): `loss_ / nexamples_`. -/
noncomputable def getLoss (s : ModelState) : ℝ :=
  s.loss_ / (s.nexamples_ : ℝ)

/-- `Model::setTargetCounts` (lines 323-331): build the negatives table when the
loss is `ns`, the Huffman tree when it is `hs`; `T` stands for the
`NEGATIVE_TABLE_SIZE` constant of `model.h`. -/
noncomputable def setTargetCounts (s : ModelState) (counts : List Int) (T : ℕ) : ModelState :=
  let s1 :=
    if s.args_.loss = .ns
    then { s with negatives_ := initTableNegatives s.rng counts T }
    else s
  if s1.args_.loss = .hs then
    let tr := buildTreeFn s1.osz_ counts
    { s1 with tree := tr, paths := buildPaths s1.osz_ tr, codes := buildCodes s1.osz_ tr }
  else s1

/-- Ordered insertion into the ascending-by-score list that models the bounded
min-heap (`std::push_heap` with `comparePairs`, whose front is the minimum score). -/
noncomputable def heapInsert (p : ℝ × ℕ) : List (ℝ × ℕ) → List (ℝ × ℕ)
  | [] => [p]
  | q :: rest => if p.1 ≤ q.1 then p :: q :: rest else q :: heapInsert p rest

/-- `heap.front().first`: the minimum score of the heap (head of the ascending list). -/
def heapMinScore (h : List (ℝ × ℕ)) : ℝ :=
  (h.headD (0, 0)).1

/-- Body of the `findKBest` scan (lines 264-278) at class `i`: skip below the
threshold; skip when the heap is full and the stable log is strictly below the heap
minimum; otherwise push and trim back to `k`.  Returns the new heap and whether the
class was pushed. -/
noncomputable def kBestStep (k : ℕ) (threshold : ℝ) (out : ℕ → ℝ)
    (h : List (ℝ × ℕ)) (i : ℕ) : List (ℝ × ℕ) × Bool :=
  if out i < threshold then (h, false)
  else if h.length = k ∧ std_logT (out i) < heapMinScore h then (h, false)
  else
    let h1 := heapInsert (std_logT (out i), i) h
    (if k < h1.length then h1.drop 1 else h1, true)

/-- The heap state of `Model::findKBest` after scanning classes `0..i-1`, starting
from the empty heap `predict` hands in. -/
noncomputable def findKBestHeapAt (k : ℕ) (threshold : ℝ) (out : ℕ → ℝ) : ℕ → List (ℝ × ℕ)
  | 0 => []
  | i + 1 => (kBestStep k threshold out (findKBestHeapAt k threshold out i) i).1

/-- Whether `findKBest` pushes class `i` onto the heap. -/
noncomputable def kBestPushed (k : ℕ) (threshold : ℝ) (out : ℕ → ℝ) (i : ℕ) : Bool :=
  (kBestStep k threshold out (findKBestHeapAt k threshold out i) i).2

/-- `Model::findKBest` (lines 254-279): softmax the output, scan all classes. -/
noncomputable def findKBest (k : ℕ) (threshold : ℝ) (out : ℕ → ℝ) (osz : ℕ) :
    List (ℝ × ℕ) :=
  findKBestHeapAt k threshold out osz

/-- `Model::dfs` (lines 281-319) with explicit recursion fuel (the built tree has
depth below `2·osz_`, the fuel `predict` passes). -/
noncomputable def dfsE (s : ModelState) (k : ℕ) (threshold : ℝ) (hidden : ℕ → ℝ) :
    ℕ → Int → ℝ → List (ℝ × ℕ) → List (ℝ × ℕ)
  | 0, _, _, heap => heap
  | fuel + 1, node, score, heap =>
    if score < std_logT threshold then heap
    else if heap.length = k ∧ score < heapMinScore heap then heap
    else
      let nd := s.tree node.toNat
      if nd.left = -1 ∧ nd.right = -1 then
        let h1 := heapInsert (score, node.toNat) heap
        if k < h1.length then h1.drop 1 else h1
      else
        let f0 := dotRow s.wo_ hidden (node.toNat - s.osz_) s.hsz_
        let f := 1 / (1 + Real.exp (-f0))
        let h1 := dfsE s k threshold hidden fuel nd.left (score + std_logT (1 - f)) heap
        dfsE s k threshold hidden fuel nd.right (score + std_logT f) h1

/-- The two `std::invalid_argument` failures of `Model::predict`. -/
inductive PredictError where
  | invalidK
  | notSupervised
deriving DecidableEq, Repr

/-- `Model::predict` (lines 221-239): reject `k ≤ 0`, then reject non-supervised
models, then compute the hidden state and run the DFS (hierarchical softmax) or the
k-best scan; the heap is finally sorted descending by score (`sort_heap` with
`comparePairs`), i.e. the ascending heap list reversed. -/
noncomputable def predict (s : ModelState) (input : List ℕ) (k : Int) (threshold : ℝ) :
    Except PredictError (List (ℝ × ℕ)) :=
  if k ≤ 0 then .error .invalidK
  else if s.args_.model ≠ .sup then .error .notSupervised
  else
    let hidden := computeHidden s.wi_ input
    let heap :=
      if s.args_.loss = .hs then
        dfsE s k.toNat threshold hidden (2 * s.osz_) ((2 : Int) * (s.osz_ : Int) - 2) 0 []
      else
        findKBest k.toNat threshold (computeOutputSoftmaxV s.wo_ hidden s.osz_ s.hsz_) s.osz_
    .ok heap.reverse

/-! ## Theorems -/

/-- The translation of the C loop bound: `j` runs another iteration exactly when
`(j : ℝ)` is below the real bound. -/
theorem loopCount_spec (x : ℝ) (j : ℕ) : j < loopCount x ↔ (j : ℝ) < x :=
  Nat.lt_ceil

/-- C1 counterexample: with `osz_ = 4` and the ascending counts `[1,2,3,4]`, the
first internal node (index 4) does NOT get leaves 0 and 1 as children — the leaf
cursor starts at the highest index, so it merges leaves 3 and 2 (counts 4 and 3). -/
theorem buildTree_firstMerge_cex :
    ¬ (((buildTreeFn 4 [1, 2, 3, 4]) 4).left = 0 ∧
       ((buildTreeFn 4 [1, 2, 3, 4]) 4).right = 1) := by
  decide

/-- C1 (amended): `buildTree` consumes leaves from index `osz_-1` downward, so the
ordering required for Huffman correctness is non-increasing counts; with
`osz_ = 4` and counts `[4,3,2,1]` the first internal node created (index 4) has as
its two children the two least-frequent leaves (indices 3 and 2, counts 1 and 2). -/
theorem buildTree_firstMerge :
    ((buildTreeFn 4 [4, 3, 2, 1]) 4).left = 3 ∧
    ((buildTreeFn 4 [4, 3, 2, 1]) 4).right = 2 ∧
    ((buildTreeFn 4 [4, 3, 2, 1]) 3).count = 1 ∧
    ((buildTreeFn 4 [4, 3, 2, 1]) 2).count = 2 ∧
    ((buildTreeFn 4 [4, 3, 2, 1]) 4).count = 3 := by
  decide

/-- C3: for every state, every in-range target and every learning rate, `update`
with an empty input sequence returns the state unchanged (matrices, loss sum and
example counter included). -/
theorem update_empty_noop (s : ModelState) (target : ℕ) (lr : ℝ)
    (h : target < s.osz_) : update s [] target lr = some s :=
  rfl

theorem update_empty_noop_witness :
    0 < (mkModel (fun _ _ => 0) (fun _ _ => 0) 1 ⟨1, .softmax, 0, .sup⟩ 0).osz_ ∧
    update (mkModel (fun _ _ => 0) (fun _ _ => 0) 1 ⟨1, .softmax, 0, .sup⟩ 0) [] 0 0 =
      some (mkModel (fun _ _ => 0) (fun _ _ => 0) 1 ⟨1, .softmax, 0, .sup⟩ 0) :=
  ⟨Nat.zero_lt_one,
   update_empty_noop (mkModel (fun _ _ => 0) (fun _ _ => 0) 1 ⟨1, .softmax, 0, .sup⟩ 0)
     0 0 Nat.zero_lt_one⟩

/-- Every `some` answer of the `getNegative` loop comes out of the `else` branch of
the `do`-`while`, where the sample differs from the target. -/
theorem getNegativeAux_ne (tbl : List ℕ) (target : ℕ) :
    ∀ fuel pos v p, getNegativeAux tbl target fuel pos = some (v, p) → v ≠ target := by
  intro fuel
  induction fuel with
  | zero => intro pos v p h; simp [getNegativeAux] at h
  | succ n ih =>
    intro pos v p h
    by_cases hc : target = tbl.getD pos 0
    · exact ih _ v p (by simpa [getNegativeAux, hc] using h)
    · simp only [getNegativeAux, if_neg hc, Option.some.injEq, Prod.mk.injEq] at h
      intro hv
      exact hc ((h.1.trans hv).symm)

/-- C6: whenever `getNegative` returns a sample, that sample differs from the true
target (the `do`-`while` loop only exits on a non-target entry). -/
theorem getNegative_ne_target (tbl : List ℕ) (pos target v p : ℕ)
    (h : getNegative tbl pos target = some (v, p)) : v ≠ target :=
  getNegativeAux_ne tbl target tbl.length pos v p h

theorem getNegative_ne_target_witness :
    getNegative [0, 1] 0 0 = some (1, 0) ∧ (1 : ℕ) ≠ 0 :=
  ⟨by decide, getNegative_ne_target [0, 1] 0 0 1 0 (by decide)⟩

/-- C7: `predict` fails (with an explicit invalid-argument error, before any
hidden-state computation or search) exactly when `k ≤ 0` or the model is not
configured as a supervised classifier. -/
theorem predict_error_iff (s : ModelState) (input : List ℕ) (k : Int) (t : ℝ) :
    (∃ e, predict s input k t = .error e) ↔ (k ≤ 0 ∨ s.args_.model ≠ .sup) := by
  unfold predict
  by_cases h1 : k ≤ 0
  · simp [h1]
  · by_cases h2 : s.args_.model = modelName.sup <;> simp [h1, h2]

/-- C8: training is a deterministic function of the seed, the initial matrices,
the configuration and the example sequence — two identically-constructed models
fed the same updates have identical embedding matrices. -/
theorem train_deterministic (wi1 wi2 wo1 wo2 : ℕ → ℕ → ℝ) (osz1 osz2 : ℕ)
    (a1 a2 : Args) (seed1 seed2 : ℕ) (exs1 exs2 : List (List ℕ × ℕ × ℝ))
    (hwi : wi1 = wi2) (hwo : wo1 = wo2) (hosz : osz1 = osz2) (ha : a1 = a2)
    (hseed : seed1 = seed2) (hexs : exs1 = exs2) :
    (runUpdates (mkModel wi1 wo1 osz1 a1 seed1) exs1).map ModelState.wi_ =
      (runUpdates (mkModel wi2 wo2 osz2 a2 seed2) exs2).map ModelState.wi_ := by
  subst hwi hwo hosz ha hseed hexs; rfl

theorem train_deterministic_witness :
    (runUpdates (mkModel (fun _ _ => 0) (fun _ _ => 0) 1 ⟨1, .softmax, 0, .sup⟩ 7)
        [([0], 0, 1)]).map ModelState.wi_ =
      (runUpdates (mkModel (fun _ _ => 0) (fun _ _ => 0) 1 ⟨1, .softmax, 0, .sup⟩ 7)
        [([0], 0, 1)]).map ModelState.wi_ :=
  train_deterministic _ _ _ _ _ _ _ _ _ _ _ _ rfl rfl rfl rfl rfl rfl

/-- C9: `predict` never checks its input for emptiness: with a valid `k ≥ 1` and a
supervised model it succeeds on the empty token list, and the hidden-state scaling
it performs divides by `hiddenDenom [] = |input| = 0`. -/
theorem predict_empty_reaches_div0 (s : ModelState) (k : Int) (t : ℝ)
    (hk : 1 ≤ k) (hm : s.args_.model = .sup) :
    (∃ r, predict s [] k t = .ok r) ∧ hiddenDenom [] = 0 := by
  constructor
  · unfold predict
    rw [if_neg (by omega), if_neg (by simp [hm])]
    exact ⟨_, rfl⟩
  · simp [hiddenDenom]

theorem predict_empty_reaches_div0_witness :
    (1 : Int) ≤ 1 ∧
    (mkModel (fun _ _ => 0) (fun _ _ => 0) 1 ⟨1, .softmax, 0, .sup⟩ 0).args_.model =
      .sup ∧
    ((∃ r, predict (mkModel (fun _ _ => 0) (fun _ _ => 0) 1 ⟨1, .softmax, 0, .sup⟩ 0)
        [] 1 0 = .ok r) ∧ hiddenDenom [] = 0) :=
  ⟨le_refl 1, rfl,
   predict_empty_reaches_div0 _ 1 0 (le_refl 1) rfl⟩

/-- C10: with the full-softmax loss, `setTargetCounts` takes neither the
negative-table branch nor the Huffman-tree branch and returns the state unchanged. -/
theorem setTargetCounts_softmax_noop (s : ModelState) (counts : List Int) (T : ℕ)
    (h : s.args_.loss = .softmax) : setTargetCounts s counts T = s := by
  simp [setTargetCounts, h]

theorem setTargetCounts_softmax_noop_witness :
    (mkModel (fun _ _ => 0) (fun _ _ => 0) 2 ⟨1, .softmax, 0, .sup⟩ 0).args_.loss =
      .softmax ∧
    setTargetCounts (mkModel (fun _ _ => 0) (fun _ _ => 0) 2 ⟨1, .softmax, 0, .sup⟩ 0)
        [3, 2] 100 =
      mkModel (fun _ _ => 0) (fun _ _ => 0) 2 ⟨1, .softmax, 0, .sup⟩ 0 :=
  ⟨rfl, setTargetCounts_softmax_noop _ [3, 2] 100 rfl⟩

/-- C5 counterexample: `k = 1`, `threshold = 0`, output probabilities
`(0.3, 0.3, 0.4)`.  After class 0 the heap is full and its minimum is
`std_log(0.3)`; class 1's stable log equals that minimum — "not greater" — yet
`findKBest` pushes it, because the code's early skip needs a strictly smaller
score. -/
theorem findKBest_skip_cex :
    kBestPushed 1 0 (fun i => if i = 2 then (2 : ℝ) / 5 else 3 / 10) 1 = true ∧
    (findKBestHeapAt 1 0 (fun i => if i = 2 then (2 : ℝ) / 5 else 3 / 10) 1).length = 1 ∧
    std_logT ((fun i => if i = 2 then (2 : ℝ) / 5 else 3 / 10) 1) ≤
      heapMinScore (findKBestHeapAt 1 0 (fun i => if i = 2 then (2 : ℝ) / 5 else 3 / 10) 1) := by
  norm_num [kBestPushed, kBestStep, findKBestHeapAt, heapInsert, heapMinScore]

/-- C5 (amended): in `findKBest`, class `i` is skipped (not pushed) exactly when
its probability is below the threshold, or the heap is already full and the
candidate's stable log-probability is STRICTLY below the heap's current minimum;
on equality the class is pushed and the heap trimmed back to `k`. -/
theorem findKBest_skip_iff (k : ℕ) (t : ℝ) (out : ℕ → ℝ) (i : ℕ) :
    kBestPushed k t out i = false ↔
      (out i < t ∨
        ((findKBestHeapAt k t out i).length = k ∧
          std_logT (out i) < heapMinScore (findKBestHeapAt k t out i))) := by
  unfold kBestPushed kBestStep
  split_ifs with h1 h2 <;> simp_all

/-- Indices at or beyond the range bound never occur in the replicate-blocks table. -/
theorem count_flatMap_replicate_ge (k : ℕ → ℕ) (i n : ℕ) (h : n ≤ i) :
    (((List.range n).flatMap fun j => List.replicate (k j) j).count i) = 0 := by
  rw [List.count_eq_zero]
  intro hmem
  rw [List.mem_flatMap] at hmem
  obtain ⟨j, hj, hij⟩ := hmem
  rw [List.mem_range] at hj
  rw [List.mem_replicate] at hij
  omega

/-- In the concatenation of blocks `replicate (k j) j` for `j < n`, index `i < n`
occurs exactly `k i` times. -/
theorem count_flatMap_replicate (k : ℕ → ℕ) (i n : ℕ) (h : i < n) :
    (((List.range n).flatMap fun j => List.replicate (k j) j).count i) = k i := by
  induction n with
  | zero => omega
  | succ m ih =>
    rw [List.range_succ, List.flatMap_append, List.count_append]
    by_cases hc : i = m
    · subst hc
      rw [count_flatMap_replicate_ge k i i le_rfl]
      simp
    · have hi : i < m := by omega
      rw [ih hi]
      have hmi : ¬ m = i := fun hmi => hc hmi.symm
      simp [List.count_replicate, hmi]

/-- C4 (amended): before the shuffle, each class `i` contributes exactly
`ceil(sqrt(counts[i])·T / Σ sqrt(counts[j]))` entries to the negatives table — the
loop `for (j = 0; j < c·T/z; j++)` runs once per natural below its real bound, i.e.
a CEILING of the quotient, which agrees with the claimed floor only when the
quotient is integral. -/
theorem initTableNegatives_count (counts : List Int) (T : ℕ) (i : ℕ)
    (hi : i < counts.length)
    (hz : 0 < (counts.map fun c => Real.sqrt ((c : Int) : ℝ)).sum) :
    (negTablePre counts T).count i =
      ⌈Real.sqrt ((counts.getD i 0 : Int) : ℝ) * (T : ℝ) /
        (counts.map fun c => Real.sqrt ((c : Int) : ℝ)).sum⌉₊ := by
  unfold negTablePre loopCount
  exact count_flatMap_replicate _ _ _ hi

theorem initTableNegatives_count_witness :
    0 < ([1, 1, 1] : List Int).length ∧
    0 < (([1, 1, 1] : List Int).map fun c => Real.sqrt ((c : Int) : ℝ)).sum ∧
    (negTablePre [1, 1, 1] 10000000).count 0 =
      ⌈Real.sqrt ((([1, 1, 1] : List Int).getD 0 0 : Int) : ℝ) * ((10000000 : ℕ) : ℝ) /
        (([1, 1, 1] : List Int).map fun c => Real.sqrt ((c : Int) : ℝ)).sum⌉₊ :=
  ⟨by decide, by norm_num [Real.sqrt_one],
   initTableNegatives_count [1, 1, 1] 10000000 0 (by decide)
     (by norm_num [Real.sqrt_one])⟩

/-- C4 counterexample: with counts `[1,1,1]` (total sqrt-weight `3 > 0`) and table
size `10^7`, class 0 contributes `⌈10^7/3⌉ = 3333334` entries, not
`⌊10^7/3⌋ = 3333333` as the claim's floor formula states. -/
theorem initTableNegatives_floor_cex :
    ¬ ((negTablePre [1, 1, 1] 10000000).count 0 =
        ⌊Real.sqrt (((1 : Int)) : ℝ) * ((10000000 : ℕ) : ℝ) /
          (([1, 1, 1] : List Int).map fun c => Real.sqrt ((c : Int) : ℝ)).sum⌋₊) := by
  have hcount : (negTablePre [1, 1, 1] 10000000).count 0 = 3333334 := by
    unfold negTablePre loopCount
    rw [count_flatMap_replicate _ _ _ (by decide)]
    have h3 : (([1, 1, 1] : List Int).map fun c => Real.sqrt ((c : Int) : ℝ)).sum = 3 := by
      norm_num [Real.sqrt_one]
    norm_num [h3, Real.sqrt_one]
    rw [Nat.ceil_eq_iff (by norm_num)]
    constructor <;> norm_num
  have hfloor : ⌊Real.sqrt (((1 : Int)) : ℝ) * ((10000000 : ℕ) : ℝ) /
      (([1, 1, 1] : List Int).map fun c => Real.sqrt ((c : Int) : ℝ)).sum⌋₊ = 3333333 := by
    have h3 : (([1, 1, 1] : List Int).map fun c => Real.sqrt ((c : Int) : ℝ)).sum = 3 := by
      norm_num [Real.sqrt_one]
    rw [h3]
    norm_num [Real.sqrt_one]
    rw [Nat.floor_eq_iff (by norm_num)]
    constructor <;> norm_num
  omega

/-- `binaryLogistic` touches only `grad_` and `wo_`; the loss accumulator field is
unchanged. -/
theorem binaryLogistic_loss_field (s : ModelState) (t : ℕ) (label : Bool) (lr : ℝ) :
    ((binaryLogistic s t label lr).1).loss_ = s.loss_ :=
  rfl

theorem binaryLogistic_nexamples_field (s : ModelState) (t : ℕ) (label : Bool) (lr : ℝ) :
    ((binaryLogistic s t label lr).1).nexamples_ = s.nexamples_ :=
  rfl

/-- A single negative-sampling loop iteration keeps the loss accumulator fields. -/
theorem nsStep_loss (target : ℕ) (lr : ℝ) (st0 st : ModelState) (x0 x : ℝ) (n : ℕ)
    (h : nsStep target lr (some (st0, x0)) n = some (st, x)) :
    st.loss_ = st0.loss_ ∧ st.nexamples_ = st0.nexamples_ := by
  simp only [nsStep] at h
  split at h
  · simp only [Option.some.injEq, Prod.mk.injEq] at h
    rw [← h.1]
    exact ⟨rfl, rfl⟩
  · split at h
    · cases h
    · simp only [Option.some.injEq, Prod.mk.injEq] at h
      rw [← h.1]
      exact ⟨rfl, rfl⟩

theorem nsFold_none (target : ℕ) (lr : ℝ) (l : List ℕ) :
    l.foldl (nsStep target lr) none = none := by
  induction l with
  | nil => rfl
  | cons a l ih => simpa [nsStep] using ih

/-- The whole negative-sampling loop keeps the loss accumulator fields. -/
theorem nsFold_loss (target : ℕ) (lr : ℝ) :
    ∀ (l : List ℕ) (st0 st : ModelState) (x0 x : ℝ),
      l.foldl (nsStep target lr) (some (st0, x0)) = some (st, x) →
      st.loss_ = st0.loss_ ∧ st.nexamples_ = st0.nexamples_ := by
  intro l
  induction l with
  | nil =>
    intro st0 st x0 x h
    simp only [List.foldl_nil, Option.some.injEq, Prod.mk.injEq] at h
    obtain ⟨h1, h2⟩ := h
    subst h1
    exact ⟨rfl, rfl⟩
  | cons a l ih =>
    intro st0 st x0 x h
    rw [List.foldl_cons] at h
    cases hs : nsStep target lr (some (st0, x0)) a with
    | none => rw [hs, nsFold_none] at h; cases h
    | some p =>
      obtain ⟨st1, x1⟩ := p
      rw [hs] at h
      obtain ⟨h1, h2⟩ := ih st1 st x1 x h
      obtain ⟨h3, h4⟩ := nsStep_loss target lr st0 st1 x0 x1 a hs
      exact ⟨h1.trans h3, h2.trans h4⟩

/-- The hierarchical-softmax path walk keeps the loss accumulator fields. -/
theorem hsFold_loss (path : List Int) (code : List Bool) (lr : ℝ) :
    ∀ (l : List ℕ) (acc : ModelState × ℝ),
      ((l.foldl (hsStep path code lr) acc).1).loss_ = (acc.1).loss_ ∧
      ((l.foldl (hsStep path code lr) acc).1).nexamples_ = (acc.1).nexamples_ := by
  intro l
  induction l with
  | nil => intro acc; exact ⟨rfl, rfl⟩
  | cons a l ih =>
    intro acc
    rw [List.foldl_cons]
    exact ih (hsStep path code lr acc a)

/-- The softmax class loop keeps the loss accumulator fields. -/
theorem smFold_loss (target : ℕ) (lr : ℝ) (out : ℕ → ℝ) :
    ∀ (l : List ℕ) (st : ModelState),
      (l.foldl (smStep target lr out) st).loss_ = st.loss_ ∧
      (l.foldl (smStep target lr out) st).nexamples_ = st.nexamples_ := by
  intro l
  induction l with
  | nil => intro st; exact ⟨rfl, rfl⟩
  | cons a l ih =>
    intro st
    rw [List.foldl_cons]
    exact ih (smStep target lr out st a)

/-- Every strategy keeps the loss accumulator fields: the branch only reports its
per-example loss. -/
theorem lossBranch_loss (s0 : ModelState) (target : ℕ) (lr : ℝ) (sb : ModelState)
    (lb : ℝ) (h : lossBranch s0 target lr = some (sb, lb)) :
    sb.loss_ = s0.loss_ ∧ sb.nexamples_ = s0.nexamples_ := by
  unfold lossBranch at h
  split at h
  · unfold negativeSampling at h
    exact nsFold_loss target lr (List.range (s0.args_.neg + 1))
      { s0 with grad_ := fun _ => 0 } sb 0 lb h
  · simp only [Option.some.injEq] at h
    have h1 : (hierarchicalSoftmax s0 target lr).1 = sb := by rw [h]
    rw [← h1]
    exact hsFold_loss (s0.paths.getD target []) (s0.codes.getD target []) lr
      (List.range (s0.paths.getD target []).length) ({ s0 with grad_ := fun _ => 0 }, 0)
  · simp only [Option.some.injEq] at h
    have h1 : (softmax s0 target lr).1 = sb := by rw [h]
    rw [← h1]
    exact smFold_loss target lr (computeOutputSoftmaxV s0.wo_ s0.hidden_ s0.osz_ s0.hsz_)
      (List.range s0.osz_)
      { s0 with grad_ := fun _ => 0,
                output_ := computeOutputSoftmaxV s0.wo_ s0.hidden_ s0.osz_ s0.hsz_ }

/-- A successful non-empty-input `update` adds exactly the strategy's reported loss
to `loss_` and bumps `nexamples_` by one. -/
theorem updateWithLoss_some (s : ModelState) (input : List ℕ) (target : ℕ) (lr : ℝ)
    (hne : input ≠ []) (s1 : ModelState) (ol : Option ℝ)
    (h : updateWithLoss s input target lr = some (s1, ol)) :
    ∃ l, ol = some l ∧ s1.loss_ = s.loss_ + l ∧ s1.nexamples_ = s.nexamples_ + 1 := by
  have hlen : ¬ input.length = 0 := fun hc => hne (List.length_eq_zero.mp hc)
  unfold updateWithLoss at h
  rw [if_neg hlen] at h
  cases hb : lossBranch { s with hidden_ := computeHidden s.wi_ input } target lr with
  | none => rw [hb] at h; cases h
  | some p =>
    obtain ⟨sb, lb⟩ := p
    rw [hb] at h
    simp only [Option.some.injEq, Prod.mk.injEq] at h
    obtain ⟨hfl, hnex⟩ := lossBranch_loss _ target lr sb lb hb
    refine ⟨lb, h.2.symm, ?_, ?_⟩ <;> rw [← h.1]
    · show sb.loss_ + lb = s.loss_ + lb
      rw [hfl]
    · show sb.nexamples_ + 1 = s.nexamples_ + 1
      rw [hnex]

/-- Over a successful run with non-empty inputs, the final loss sum is the initial
one plus the sum of the per-example losses, and the example counter advances once
per example. -/
theorem runTrace_loss :
    ∀ (exs : List (List ℕ × ℕ × ℝ)) (s s' : ModelState) (ls : List ℝ),
      (∀ e ∈ exs, e.1 ≠ []) → runTrace s exs = some (s', ls) →
      s'.loss_ = s.loss_ + ls.sum ∧ s'.nexamples_ = s.nexamples_ + exs.length ∧
        ls.length = exs.length := by
  intro exs
  induction exs with
  | nil =>
    intro s s' ls _ h
    simp only [runTrace, Option.some.injEq, Prod.mk.injEq] at h
    obtain ⟨h1, h2⟩ := h
    subst h1
    subst h2
    simp
  | cons ex rest ih =>
    intro s s' ls hne h
    unfold runTrace at h
    cases hu : updateWithLoss s ex.1 ex.2.1 ex.2.2 with
    | none => rw [hu] at h; cases h
    | some p =>
      obtain ⟨s1, ol⟩ := p
      rw [hu] at h
      dsimp only [] at h
      cases hr : runTrace s1 rest with
      | none => rw [hr] at h; cases h
      | some q =>
        obtain ⟨s2, ls2⟩ := q
        rw [hr] at h
        simp only [Option.some.injEq, Prod.mk.injEq] at h
        obtain ⟨l0, hol, hloss, hnex⟩ :=
          updateWithLoss_some s ex.1 ex.2.1 ex.2.2 (hne ex (by simp)) s1 ol hu
        obtain ⟨h1, h2, h3⟩ := ih s1 s2 ls2 (fun e he => hne e (by simp [he])) hr
        obtain ⟨hs', hls⟩ := h
        subst hs'
        subst hls
        subst hol
        refine ⟨?_, ?_, ?_⟩
        · simp only [Option.toList_some, List.sum_cons, List.singleton_append]
          rw [h1, hloss]
          ring
        · simp only [List.length_cons, Option.toList_some, List.singleton_append]
          rw [h2, hnex]
          omega
        · simp only [Option.toList_some, List.singleton_append, List.length_cons]
          omega

/-- C2 (amended): after `N` successful non-empty-input updates on a freshly
constructed model, `getLoss()` returns the sum of the `N` per-example losses
divided by `N + 1` — not by `N` — because the constructor initialises the example
counter `nexamples_` to 1, and each update increments it. -/
theorem getLoss_mean (wi wo : ℕ → ℕ → ℝ) (oszWo : ℕ) (args : Args) (seed : ℕ)
    (exs : List (List ℕ × ℕ × ℝ)) (s' : ModelState) (ls : List ℝ)
    (hne : ∀ e ∈ exs, e.1 ≠ [])
    (h : runTrace (mkModel wi wo oszWo args seed) exs = some (s', ls)) :
    getLoss s' = ls.sum / ((exs.length : ℝ) + 1) := by
  obtain ⟨h1, h2, _⟩ := runTrace_loss exs (mkModel wi wo oszWo args seed) s' ls hne h
  unfold getLoss
  rw [h1, h2]
  show (0 + ls.sum) / ((1 + exs.length : ℕ) : ℝ) = ls.sum / ((exs.length : ℝ) + 1)
  push_cast
  ring_nf

theorem getLoss_mean_witness :
    (∀ e ∈ ([] : List (List ℕ × ℕ × ℝ)), e.1 ≠ []) ∧
    getLoss (mkModel (fun _ _ => 0) (fun _ _ => 0) 1 ⟨1, .softmax, 0, .sup⟩ 0) =
      ([] : List ℝ).sum / (((([] : List (List ℕ × ℕ × ℝ)).length : ℝ)) + 1) :=
  ⟨fun e he => absurd he (List.not_mem_nil e),
   getLoss_mean (fun _ _ => 0) (fun _ _ => 0) 1 ⟨1, .softmax, 0, .sup⟩ 0 [] _ []
     (fun e he => absurd he (List.not_mem_nil e)) rfl⟩

/-- C2 counterexample: one negative-sampling update (`neg = 0`, `lr = 0`) on a
1-class model whose single logit is `-9`: the clamped sigmoid scores 0, the table
log gives the per-example loss `-ln(1e-5/512) > 0`, and `getLoss()` returns that
loss divided by `nexamples_ = 2`, not divided by `N = 1` as the claim states. -/
theorem getLoss_mean_cex :
    (runTrace (mkModel (fun _ _ => -9) (fun _ _ => 1) 1 ⟨1, .ns, 0, .cbow⟩ 0)
        [([0], 0, 0)]).map (fun p => getLoss p.1) ≠
      (runTrace (mkModel (fun _ _ => -9) (fun _ _ => 1) 1 ⟨1, .ns, 0, .cbow⟩ 0)
        [([0], 0, 0)]).map
        (fun p => p.2.sum / (([([0], 0, 0)] : List (List ℕ × ℕ × ℝ)).length : ℝ)) := by
  have hlog : Real.log ((1 : ℝ) / 51200000) < 0 :=
    Real.log_neg (by norm_num) (by norm_num)
  norm_num [runTrace, updateWithLoss, lossBranch, negativeSampling, nsStep, binaryLogistic,
    computeHidden, hiddenDenom, dotRow, sigmoidT, logT, t_logVal, truncZ, getLoss, mkModel,
    List.range_succ, List.range_zero]
  intro heq
  linarith

end FastText
